import Mathlib

/-!
Verification of the changelog-automation pipeline of the monorepo utils
(`src/tools/monorepo-utils/src/changefile/index.ts`).

The pipeline is embedded as a deterministic function from an environment
(the data the external collaborators return: PR metadata, the touched
project set, the cloned working copy) to a run result consisting of

* an effect trace (every observable action: clone, checkout, fragment
  removal, dependency install, per-project generation command, git
  config/status/add/commit/push, notices, the caught-error log),
* the process exit code,
* the final working-copy state and the remote branch state after an
  eventual push.

The working copy is modelled as a base filesystem (the clone, a map from
paths to file contents) together with a minimal delta, so that the
emptiness of the delta coincides with the emptiness of the
`git status --short` output the pipeline branches on.
-/

set_option autoImplicit false

namespace Changefile

/-- A path-to-content map: the files of the working copy (or of the remote
branch). `none` means the file does not exist. -/
abbrev FS := String → Option String

/-- The pending changes of the working copy relative to the clone base:
an association list from paths to `some content` (created/modified) or
`none` (deleted).  It is kept minimal (entries always differ from the
base), so the list is empty exactly when `git status --short` prints
nothing. -/
abbrev Delta := List (String × Option String)

/-- The observable actions of one pipeline run, in order. -/
inductive Effect where
  | fetchPR : Effect
  | notice : String → Effect
  | clone : Effect
  | checkout : String → Effect
  | removeFragment : String → Effect
  | pnpmInstall : Effect
  | generate : String → String → Effect
  | logError : Effect
  | gitConfigGlobal : String → String → Effect
  | gitStatusShort : Effect
  | gitAdd : Effect
  | gitCommit : String → Effect
  | gitPush : String → Effect
deriving DecidableEq

/-- The structured changelog directive parsed from the PR body
(`getChangelogDetails`): significance, type and the optional message and
comment (the empty string standing for an absent optional field, matching
the falsiness test of the source). -/
structure ChangelogDetails where
  significance : String
  type : String
  message : String
  comment : String
deriving DecidableEq

/-- Everything the external collaborators hand to the pipeline:
the PR metadata from `getPullRequestData`, the CLI options, the result of
`getTouchedProjectsRequiringChangelog` (which diffs `base..head` through
the hosting API) and of `getAllProjectPaths`, the content of the working
copy at clone time, the behaviour of the per-project generation
subprocess, and whether the run is in GitHub CI. -/
structure GenEnv where
  prNumber : String
  prBody : String
  headOwner : String
  name : String
  branch : String
  fileName : String
  base : String
  head : String
  devRepoPath : Option String
  clonePath : String
  touched : List String
  allProjects : List String
  remoteFS : FS
  genContent : String → String
  genFails : String → Bool
  installFails : Bool
  isGithubCI : Bool

/-- The result of one run: effect trace, exit code, final working copy,
remote branch content after an eventual push, and whether a commit was
made. -/
structure RunResult where
  trace : List Effect
  exitCode : Nat
  finalFS : FS
  remoteAfter : FS
  committed : Bool

/-! ### Minimal-delta filesystem operations -/

/-- Read a path through the delta, falling back to the clone base. -/
def deltaLookup (base : FS) : Delta → String → Option String
  | [], p => base p
  | e :: d, p => if e.1 = p then e.2 else deltaLookup base d p

/-- Drop every delta entry for a path. -/
def deltaErase : Delta → String → Delta
  | [], _ => []
  | e :: d, p => if e.1 = p then deltaErase d p else e :: deltaErase d p

/-- Write a path, keeping the delta minimal: writing the base value back
erases the entry instead of recording it. -/
def deltaSet (base : FS) (d : Delta) (p : String) (v : Option String) : Delta :=
  if base p = v then deltaErase d p else (p, v) :: deltaErase d p

/-- Minimality invariant: every recorded entry differs from the base, so
an empty `git status --short` is exactly an empty delta. -/
def DeltaMin (base : FS) (d : Delta) : Prop := ∀ e ∈ d, base e.1 ≠ e.2

/-! ### PR body parsing (the `./lib/github` collaborator) -/

/-- The checkbox label quoted by the source notice. -/
def automationMarker : String :=
  "[x] Automatically create a changelog entry from the details"

/-- Whether `needle` occurs as a contiguous substring of the other list. -/
def hasInfix (needle : List Char) : List Char → Bool
  | [] => needle.isEmpty
  | c :: cs => needle.isPrefixOf (c :: cs) || hasInfix needle cs

/-- Modelled from the spec: `shouldAutomateChangelog` (from the missing
`changefile/lib/github` module) recognizes automation opt-in via a
specific checkbox marker in the PR body; absence of the marker (unchecked
or missing) yields `false`. -/
def shouldAutomateChangelog (body : String) : Bool :=
  hasInfix automationMarker.data body.data

/-- Break a character list into lines at newline characters. -/
def splitLines : List Char → List (List Char)
  | [] => [[]]
  | c :: cs =>
    if c = '\n' then [] :: splitLines cs
    else
      match splitLines cs with
      | [] => [[c]]
      | l :: ls => (c :: l) :: ls

/-- The value of a labelled template line, when the line carries it. -/
def fieldValue (label : List Char) (line : List Char) : Option (List Char) :=
  if label.isPrefixOf line then some (line.drop label.length) else none

/-- First value of a labelled line of the body, if any. -/
def extractField (body : String) (label : String) : Option String :=
  ((splitLines body.data).filterMap
    (fun l => (fieldValue (label.data ++ [':', ' ']) l).map String.mk)).head?

/-- The admissible significance values. -/
def significanceValues : List String := ["patch", "minor", "major"]

/-- Modelled from the spec: `getChangelogDetails` (from the missing
`changefile/lib/github` module) extracts the structured fields from a
fixed template section of the body; a malformed or missing required field
(significance, type) is a directive parse error that is raised as an
exception, aborting the run before the clone step. -/
def getChangelogDetails (body : String) : Except String ChangelogDetails :=
  match extractField body "Significance", extractField body "Type" with
  | some s, some t =>
    if significanceValues.contains s then
      Except.ok
        { significance := s
          type := t
          message := (extractField body "Message").getD ""
          comment := (extractField body "Comment").getD "" }
    else Except.error "DirectiveParseError"
  | _, _ => Except.error "DirectiveParseError"

/-! ### Paths and the generation command -/

/-- The working copy location: the supplied existing repo, or the fresh
clone. -/
def tmpPath (env : GenEnv) : String := env.devRepoPath.getD env.clonePath

/-- `nodePath.join(tmpRepoPath, projectPath, 'changelog', fileName)`. -/
def fragmentPath (tmp pp f : String) : String :=
  tmp ++ "/" ++ pp ++ "/changelog/" ++ f

/-- The shell command string built for one project, exactly as the source
interpolates it (including the double spaces left by an absent optional
message or comment). -/
def changelogCmd (project f : String) (det : ChangelogDetails) : String :=
  let messageExpr := if det.message ≠ "" then "-e \"" ++ det.message ++ "\"" else ""
  let commentExpr := if det.comment ≠ "" then "-c \"" ++ det.comment ++ "\"" else ""
  "pnpm --filter=" ++ project ++ " run changelog add -f " ++ f ++ " -s " ++
    det.significance ++ " -t " ++ det.type ++ " " ++ messageExpr ++ " " ++
    commentExpr ++ " -n"

/-! ### Reconciliation (stale fragment removal) -/

/-- One step of the removal loop over all project paths: if the fragment
file exists in the working copy, log and delete it. -/
def reconcileStep (base : FS) (tmp f : String) (acc : Delta × List Effect)
    (pp : String) : Delta × List Effect :=
  let π := fragmentPath tmp pp f
  if (deltaLookup base acc.1 π).isSome then
    (deltaSet base acc.1 π none,
      acc.2 ++ [Effect.notice ("Remove existing changelog file " ++ π),
        Effect.removeFragment π])
  else acc

/-- The whole removal loop (`allProjectPaths.forEach`). -/
def reconcileAll (base : FS) (tmp f : String) (ps : List String) :
    Delta × List Effect :=
  ps.foldl (reconcileStep base tmp f) ([], [])

/-- The delta left by reconciliation alone. -/
def postReconcileDelta (env : GenEnv) : Delta :=
  (reconcileAll env.remoteFS (tmpPath env) env.fileName env.allProjects).1

/-! ### Generation loop -/

/-- The generation loop over the touched-requiring set.  Each step logs
and invokes the per-project fragment command; a failing subprocess throws,
which aborts the loop (the `try` block catches it further out).  Returns
the resulting delta, the emitted effects, and whether the loop ran to
completion. -/
def generationLoop (env : GenEnv) (det : ChangelogDetails) :
    List String → Delta → Delta × List Effect × Bool
  | [], d => (d, [], true)
  | p :: rest, d =>
    let effs := [Effect.notice ("Running changelog command for " ++ p),
      Effect.generate p (changelogCmd p env.fileName det)]
    if env.genFails p then (d, effs, false)
    else
      let d2 := deltaSet env.remoteFS d
        (fragmentPath (tmpPath env) p env.fileName) (some (env.genContent p))
      let r := generationLoop env det rest d2
      (r.1, effs ++ r.2.1, r.2.2)

/-- The part of the `try` block after the empty-touched-set check:
dependency install (skipped for a supplied dev repo, and failing inside
the `try` when `installFails`), then the generation loop. -/
def tryPhase (env : GenEnv) (det : ChangelogDetails) :
    Delta × List Effect × Bool :=
  let d1 := postReconcileDelta env
  if env.devRepoPath.isNone then
    if env.installFails then
      (d1, [Effect.notice ("Installing dependencies in " ++ tmpPath env),
        Effect.pnpmInstall], false)
    else
      let r := generationLoop env det env.touched d1
      (r.1, Effect.notice ("Installing dependencies in " ++ tmpPath env) ::
        Effect.pnpmInstall :: r.2.1, r.2.2)
  else generationLoop env det env.touched d1

/-! ### The pipeline -/

/-- The notice printed when the checkbox is unchecked or absent. -/
def noAutomationNotice (prNumber : String) : String :=
  "PR #" ++ prNumber ++
    " does not have the \"Automatically create a changelog entry from the details\" checkbox checked. No changelog will be created."

/-- Effects up to and including the touched-set computation: PR fetch,
clone (unless a dev repo path was supplied), branch checkout, and the
accompanying notices. -/
def headerTrace (env : GenEnv) : List Effect :=
  Effect.fetchPR ::
    (if env.devRepoPath.isNone then [Effect.clone] else []) ++
    [Effect.notice ("Temporary clone created at " ++ tmpPath env),
      Effect.notice ("Checking out remote branch " ++ env.branch),
      Effect.checkout env.branch,
      Effect.notice "Getting all touched projects requiring a changelog",
      Effect.notice "Removing existing changelog files in case a change is reverted and the entry is no longer needed"]

/-- From the end of the `try` block to process exit: caught-error log,
the unconditional final notice, CI identity configuration (note the
`--global` flag of the source), short status, and either the no-changes
short circuit or add/commit/push. -/
def commitPhase (env : GenEnv) (det : ChangelogDetails) (t2 : List Effect) :
    RunResult :=
  let tp := tryPhase env det
  let t4 := t2 ++ tp.2.1 ++ (if tp.2.2 then [] else [Effect.logError]) ++
    [Effect.notice ("Changelogs created for " ++
      String.intercalate ", " env.touched)] ++
    (if env.isGithubCI then
      [Effect.gitConfigGlobal "user.email" "github-actions@github.com",
        Effect.gitConfigGlobal "user.name" "github-actions"]
    else []) ++ [Effect.gitStatusShort]
  if tp.1 = [] then
    { trace := t4 ++
        [Effect.notice "No changes in changelog files. Skipping commit and push."]
      exitCode := 0
      finalFS := deltaLookup env.remoteFS tp.1
      remoteAfter := env.remoteFS
      committed := false }
  else
    { trace := t4 ++ [Effect.gitAdd,
        Effect.gitCommit "Adding changelog from automation.",
        Effect.gitPush env.branch,
        Effect.notice ("Pushed changes to " ++ env.branch)]
      exitCode := 0
      finalFS := deltaLookup env.remoteFS tp.1
      remoteAfter := deltaLookup env.remoteFS tp.1
      committed := true }

/-- The pipeline once automation is requested and the directive parsed:
clone/checkout, reconciliation, the empty-touched-set early exit, then
install/generation and the commit phase. -/
def runGen (env : GenEnv) (det : ChangelogDetails) : RunResult :=
  let t2 := headerTrace env ++
    (reconcileAll env.remoteFS (tmpPath env) env.fileName env.allProjects).2
  if env.touched.length = 0 then
    { trace := t2 ++ [Effect.notice "No projects require a changelog"]
      exitCode := 0
      finalFS := deltaLookup env.remoteFS (postReconcileDelta env)
      remoteAfter := env.remoteFS
      committed := false }
  else commitPhase env det t2

/-- One whole run of the `changefile` action. -/
def run (env : GenEnv) : RunResult :=
  if shouldAutomateChangelog env.prBody then
    match getChangelogDetails env.prBody with
    | Except.error _ =>
      { trace := [Effect.fetchPR]
        exitCode := 1
        finalFS := env.remoteFS
        remoteAfter := env.remoteFS
        committed := false }
    | Except.ok det => runGen env det
  else
    { trace := [Effect.fetchPR, Effect.notice (noAutomationNotice env.prNumber)]
      exitCode := 0
      finalFS := env.remoteFS
      remoteAfter := env.remoteFS
      committed := false }

/-! ### Derived generation bookkeeping -/

/-- The projects whose fragment was actually written: the prefix of the
touched set before the first failing subprocess. -/
def writtenProjects (fails : String → Bool) : List String → List String
  | [] => []
  | p :: rest => if fails p then [] else p :: writtenProjects fails rest

/-- The projects the loop attempted (the written prefix plus the failing
project, when there is one). -/
def attemptedProjects (fails : String → Bool) : List String → List String
  | [] => []
  | p :: rest => if fails p then [p] else p :: attemptedProjects fails rest

/-- The fragment writes of a list of projects, applied in order. -/
def applyGen (base : FS) (tmp f : String) (gc : String → String) :
    Delta → List String → Delta
  | d, [] => d
  | d, p :: rest =>
    applyGen base tmp f gc (deltaSet base d (fragmentPath tmp p f) (some (gc p))) rest

/-- The effects the generation loop emits for a list of projects. -/
def genEffectsOf (f : String) (det : ChangelogDetails) : List String → List Effect
  | [] => []
  | p :: rest =>
    Effect.notice ("Running changelog command for " ++ p) ::
      Effect.generate p (changelogCmd p f det) :: genEffectsOf f det rest

/-- The projects actually written in a run, accounting for a possible
install failure (which aborts the `try` block before any generation). -/
def writtenList (env : GenEnv) : List String :=
  if env.devRepoPath.isNone ∧ env.installFails then []
  else writtenProjects env.genFails env.touched

/-- The project of each `generate` effect of a trace, in order. -/
def generatedProjects (t : List Effect) : List String :=
  t.filterMap (fun e => match e with
    | Effect.generate p _ => some p
    | _ => none)

/-! ### Shell word splitting

A model of how a POSIX shell cuts the constructed command string into
the argument vector handed to the subprocess: unquoted spaces separate
words, double quotes group, and a backslash escapes the next character
(inside double quotes only before a quote or a backslash, as in POSIX).
Expansion (`$`, backquote) is not modelled.  `none` signals a syntax
error (unterminated quote or trailing backslash). -/

/-- Word-splitting worker: remaining input, inside-quotes flag, current
word (reversed), finished words (reversed). -/
def shellSplitAux : List Char → Bool → List Char → List (List Char) →
    Option (List (List Char))
  | [], inQ, w, toks =>
    if inQ then none
    else if w.isEmpty then some toks.reverse
    else some (w.reverse :: toks).reverse
  | c :: cs, inQ, w, toks =>
    if inQ then
      if c = '"' then shellSplitAux cs false w toks
      else if c = '\\' then
        match cs with
        | [] => none
        | d :: ds =>
          if d = '"' ∨ d = '\\' then shellSplitAux ds true (d :: w) toks
          else shellSplitAux (d :: ds) true ('\\' :: w) toks
      else shellSplitAux cs true (c :: w) toks
    else
      if c = ' ' then
        if w.isEmpty then shellSplitAux cs false [] toks
        else shellSplitAux cs false [] (w.reverse :: toks)
      else if c = '"' then shellSplitAux cs true w toks
      else if c = '\\' then
        match cs with
        | [] => none
        | d :: ds => shellSplitAux ds false (d :: w) toks
      else shellSplitAux cs false (c :: w) toks

/-- The argument vector a POSIX shell derives from a command string. -/
def shellSplit (s : String) : Option (List String) :=
  (shellSplitAux s.data false [] []).map (fun ls => ls.map String.mk)

/-! ### Concrete environments and helpers for the claim witnesses -/

/-- A PR body without the automation checkbox. -/
def envNoAuto : GenEnv :=
  { prNumber := "42"
    prBody := "Just an ordinary description."
    headOwner := "octocat"
    name := "woocommerce"
    branch := "fix/thing"
    fileName := "42"
    base := "abc"
    head := "def"
    devRepoPath := none
    clonePath := "/tmp/repo"
    touched := ["packages/core"]
    allProjects := ["packages/core"]
    remoteFS := fun _ => none
    genContent := fun _ => "Significance: patch"
    genFails := fun _ => false
    installFails := false
    isGithubCI := true }

/-- A PR body with the checkbox set but no significance/type section. -/
def envBadDirective : GenEnv :=
  { envNoAuto with
    prBody := "[x] Automatically create a changelog entry from the details" }

/-- A valid directive body, used by several witnesses: checkbox set,
significance and type present. -/
def okBody : String :=
  "[x] Automatically create a changelog entry from the details\nSignificance: patch\nType: fix"

/-- The directive `okBody` parses to. -/
def okDetails : ChangelogDetails :=
  { significance := "patch", type := "fix", message := "", comment := "" }

/-- Automation requested, valid directive, but only a non-requiring
project was touched: the touched-requiring set is empty. -/
def envEmptyTouched : GenEnv :=
  { envNoAuto with prBody := okBody, touched := [] }

/-- A run in GitHub CI that reaches the commit phase. -/
def envCI : GenEnv := { envNoAuto with prBody := okBody }

/-- A run whose working copy holds a stale fragment for a non-touched
project as well as for the touched one. -/
def envStale : GenEnv :=
  { envCI with
    allProjects := ["packages/core", "docs"]
    remoteFS := fun π =>
      if π = "/tmp/repo/docs/changelog/42" then some "stale entry" else none }

/-- The effects of the commit phase after the generation loop. -/
def postGenTail (env : GenEnv) (det : ChangelogDetails) : List Effect :=
  (if (tryPhase env det).2.2 then [] else [Effect.logError]) ++
  [Effect.notice ("Changelogs created for " ++
    String.intercalate ", " env.touched)] ++
  (if env.isGithubCI then
    [Effect.gitConfigGlobal "user.email" "github-actions@github.com",
      Effect.gitConfigGlobal "user.name" "github-actions"]
  else []) ++ [Effect.gitStatusShort] ++
  (if (tryPhase env det).1 = [] then
    [Effect.notice "No changes in changelog files. Skipping commit and push."]
  else [Effect.gitAdd, Effect.gitCommit "Adding changelog from automation.",
    Effect.gitPush env.branch,
    Effect.notice ("Pushed changes to " ++ env.branch)])

/-- A run in which generation fails for the first touched project. -/
def envFail : GenEnv :=
  { envCI with
    touched := ["projA", "projB"]
    allProjects := ["projA", "projB"]
    genFails := fun p => p == "projA" }

/-- A run whose working copy already carries exactly the fragment the
generator would produce: the regenerated content is byte-identical. -/
def envIdem : GenEnv :=
  { envCI with
    remoteFS := fun π =>
      if π = "/tmp/repo/packages/core/changelog/42" then
        some "Significance: patch"
      else none }

/-- A hostile PR message: a double quote closes the `-e` argument early
and smuggles extra words into the command line. -/
def injDetails : ChangelogDetails :=
  { significance := "patch"
    type := "fix"
    message := "a\" rm -rf / \"b"
    comment := "note" }

/-! ### Lemmas about the minimal-delta filesystem -/

theorem deltaLookup_erase (base : FS) (d : Delta) (p q : String) :
    deltaLookup base (deltaErase d p) q =
      if q = p then base q else deltaLookup base d q := by
  induction d with
  | nil => simp [deltaErase, deltaLookup]
  | cons e d ih =>
    by_cases hep : e.1 = p
    · by_cases hqp : q = p
      · subst hqp
        simp [deltaErase, deltaLookup, hep, ih]
      · have h1 : ¬ e.1 = q := by
          rw [hep]; intro h; exact hqp h.symm
        have h2 : ¬ p = q := fun h => hqp h.symm
        simp [deltaErase, deltaLookup, hep, hqp, ih, h1, h2]
    · by_cases heq : e.1 = q
      · have hqp : ¬ q = p := by
          intro h; exact hep (heq.trans h)
        simp [deltaErase, deltaLookup, hep, heq, hqp]
      · simp [deltaErase, deltaLookup, hep, heq, ih]

theorem deltaLookup_set (base : FS) (d : Delta) (p : String)
    (v : Option String) (q : String) :
    deltaLookup base (deltaSet base d p v) q =
      if q = p then v else deltaLookup base d q := by
  unfold deltaSet
  by_cases hb : base p = v
  · rw [if_pos hb, deltaLookup_erase]
    by_cases hqp : q = p
    · simp [hqp, hb]
    · simp [hqp]
  · rw [if_neg hb]
    by_cases hqp : q = p
    · simp [deltaLookup, hqp]
    · have : ¬ p = q := fun h => hqp h.symm
      simp [deltaLookup, this, deltaLookup_erase, hqp]

theorem deltaMin_erase {base : FS} {d : Delta} (p : String)
    (h : DeltaMin base d) : DeltaMin base (deltaErase d p) := by
  induction d with
  | nil => simpa [deltaErase] using h
  | cons e d ih =>
    have hd : DeltaMin base d := fun x hx => h x (List.mem_cons_of_mem _ hx)
    by_cases hep : e.1 = p
    · simpa [deltaErase, hep] using ih hd
    · intro x hx
      simp only [deltaErase, if_neg hep, List.mem_cons] at hx
      rcases hx with rfl | hx
      · exact h x (List.mem_cons_self _ _)
      · exact ih hd x hx

theorem deltaMin_set {base : FS} {d : Delta} (p : String) (v : Option String)
    (h : DeltaMin base d) : DeltaMin base (deltaSet base d p v) := by
  unfold deltaSet
  by_cases hb : base p = v
  · simpa [hb] using deltaMin_erase p h
  · rw [if_neg hb]
    intro x hx
    rcases List.mem_cons.mp hx with rfl | hx
    · exact hb
    · exact deltaMin_erase p h x hx

theorem deltaMin_eq_nil {base : FS} {d : Delta} (h : DeltaMin base d)
    (hl : ∀ q, deltaLookup base d q = base q) : d = [] := by
  cases d with
  | nil => rfl
  | cons e d =>
    exfalso
    have := hl e.1
    simp [deltaLookup] at this
    exact h e (List.mem_cons_self _ _) this.symm

/-! ### Lemmas about reconciliation -/

theorem reconcileStep_eq (base : FS) (tmp f : String) (d : Delta)
    (t : List Effect) (pp : String) :
    reconcileStep base tmp f (d, t) pp =
      if (deltaLookup base d (fragmentPath tmp pp f)).isSome then
        (deltaSet base d (fragmentPath tmp pp f) none,
          t ++ [Effect.notice
              ("Remove existing changelog file " ++ fragmentPath tmp pp f),
            Effect.removeFragment (fragmentPath tmp pp f)])
      else (d, t) := rfl

theorem reconcile_foldl_lookup_preserve_none (base : FS) (tmp f : String)
    (ps : List String) : ∀ (d : Delta) (t : List Effect) (π : String),
    deltaLookup base d π = none →
    deltaLookup base (ps.foldl (reconcileStep base tmp f) (d, t)).1 π = none := by
  induction ps with
  | nil => intro d t π h; simpa using h
  | cons pp rest ih =>
    intro d t π h
    rw [List.foldl_cons, reconcileStep_eq]
    by_cases hs : (deltaLookup base d (fragmentPath tmp pp f)).isSome
    · rw [if_pos hs]
      apply ih
      rw [deltaLookup_set]
      by_cases hπ : π = fragmentPath tmp pp f
      · simp [hπ]
      · simp [hπ, h]
    · rw [if_neg hs]
      exact ih d t π h

theorem reconcile_foldl_lookup_other (base : FS) (tmp f : String)
    (ps : List String) : ∀ (d : Delta) (t : List Effect) (π : String),
    (∀ pp ∈ ps, fragmentPath tmp pp f ≠ π) →
    deltaLookup base (ps.foldl (reconcileStep base tmp f) (d, t)).1 π =
      deltaLookup base d π := by
  induction ps with
  | nil => intro d t π _; simp
  | cons pp rest ih =>
    intro d t π h
    rw [List.foldl_cons, reconcileStep_eq]
    have hne : ¬ π = fragmentPath tmp pp f := by
      intro he; exact h pp (List.mem_cons_self _ _) he.symm
    have hrest : ∀ q ∈ rest, fragmentPath tmp q f ≠ π :=
      fun q hq => h q (List.mem_cons_of_mem _ hq)
    by_cases hs : (deltaLookup base d (fragmentPath tmp pp f)).isSome
    · rw [if_pos hs, ih _ _ _ hrest, deltaLookup_set, if_neg hne]
    · rw [if_neg hs]
      exact ih d t π hrest

theorem reconcile_foldl_lookup_mem (base : FS) (tmp f : String)
    (ps : List String) : ∀ (d : Delta) (t : List Effect) (π : String),
    (∃ pp ∈ ps, fragmentPath tmp pp f = π) →
    deltaLookup base (ps.foldl (reconcileStep base tmp f) (d, t)).1 π = none := by
  induction ps with
  | nil => intro d t π h; simp at h
  | cons pp rest ih =>
    intro d t π h
    rw [List.foldl_cons, reconcileStep_eq]
    by_cases hπ : fragmentPath tmp pp f = π
    · by_cases hs : (deltaLookup base d (fragmentPath tmp pp f)).isSome
      · rw [if_pos hs]
        apply reconcile_foldl_lookup_preserve_none
        rw [deltaLookup_set, if_pos hπ.symm]
      · rw [if_neg hs]
        apply reconcile_foldl_lookup_preserve_none
        rw [← hπ]
        exact Option.not_isSome_iff_eq_none.mp hs
    · have hrest : ∃ q ∈ rest, fragmentPath tmp q f = π := by
        rcases h with ⟨q, hq, hqe⟩
        rcases List.mem_cons.mp hq with rfl | hq
        · exact absurd hqe hπ
        · exact ⟨q, hq, hqe⟩
      by_cases hs : (deltaLookup base d (fragmentPath tmp pp f)).isSome
      · rw [if_pos hs]; exact ih _ _ _ hrest
      · rw [if_neg hs]; exact ih _ _ _ hrest

theorem reconcile_foldl_min (base : FS) (tmp f : String) (ps : List String) :
    ∀ (d : Delta) (t : List Effect), DeltaMin base d →
    DeltaMin base (ps.foldl (reconcileStep base tmp f) (d, t)).1 := by
  induction ps with
  | nil => intro d t h; simpa using h
  | cons pp rest ih =>
    intro d t h
    rw [List.foldl_cons, reconcileStep_eq]
    by_cases hs : (deltaLookup base d (fragmentPath tmp pp f)).isSome
    · rw [if_pos hs]
      exact ih _ _ (deltaMin_set _ _ h)
    · rw [if_neg hs]
      exact ih _ _ h

theorem reconcile_foldl_trace_mono (base : FS) (tmp f : String)
    (ps : List String) : ∀ (d : Delta) (t : List Effect) (e : Effect), e ∈ t →
    e ∈ (ps.foldl (reconcileStep base tmp f) (d, t)).2 := by
  induction ps with
  | nil => intro d t e h; simpa using h
  | cons pp rest ih =>
    intro d t e h
    rw [List.foldl_cons, reconcileStep_eq]
    by_cases hs : (deltaLookup base d (fragmentPath tmp pp f)).isSome
    · rw [if_pos hs]
      exact ih _ _ _ (List.mem_append_left _ h)
    · rw [if_neg hs]
      exact ih _ _ _ h

theorem reconcile_foldl_remove_mem (base : FS) (tmp f : String)
    (ps : List String) : ∀ (d : Delta) (t : List Effect) (π : String),
    (∃ pp ∈ ps, fragmentPath tmp pp f = π) →
    (deltaLookup base d π).isSome →
    Effect.removeFragment π ∈ (ps.foldl (reconcileStep base tmp f) (d, t)).2 := by
  induction ps with
  | nil => intro d t π h; simp at h
  | cons pp rest ih =>
    intro d t π h hsome
    rw [List.foldl_cons, reconcileStep_eq]
    by_cases hπ : fragmentPath tmp pp f = π
    · rw [hπ, if_pos hsome]
      apply reconcile_foldl_trace_mono
      simp
    · have hrest : ∃ q ∈ rest, fragmentPath tmp q f = π := by
        rcases h with ⟨q, hq, hqe⟩
        rcases List.mem_cons.mp hq with rfl | hq
        · exact absurd hqe hπ
        · exact ⟨q, hq, hqe⟩
      by_cases hs : (deltaLookup base d (fragmentPath tmp pp f)).isSome
      · rw [if_pos hs]
        apply ih _ _ _ hrest
        rw [deltaLookup_set, if_neg (fun he => hπ he.symm)]
        exact hsome
      · rw [if_neg hs]
        exact ih _ _ _ hrest hsome

theorem reconcile_foldl_trace_shape (base : FS) (tmp f : String)
    (ps : List String) : ∀ (d : Delta) (t : List Effect) (e : Effect),
    e ∈ (ps.foldl (reconcileStep base tmp f) (d, t)).2 →
    e ∈ t ∨ (∃ s, e = Effect.notice s) ∨ ∃ π, e = Effect.removeFragment π := by
  induction ps with
  | nil => intro d t e h; exact Or.inl (by simpa using h)
  | cons pp rest ih =>
    intro d t e h
    rw [List.foldl_cons, reconcileStep_eq] at h
    by_cases hs : (deltaLookup base d (fragmentPath tmp pp f)).isSome
    · rw [if_pos hs] at h
      rcases ih _ _ _ h with hmem | hrest
      · rcases List.mem_append.mp hmem with hmem | hmem
        · exact Or.inl hmem
        · simp only [List.mem_cons, List.mem_singleton] at hmem
          rcases hmem with rfl | hmem
          · exact Or.inr (Or.inl ⟨_, rfl⟩)
          · simp only [List.not_mem_nil, or_false] at hmem
            subst hmem
            exact Or.inr (Or.inr ⟨_, rfl⟩)
      · exact Or.inr hrest
    · rw [if_neg hs] at h
      exact ih _ _ _ h

/-! ### Lemmas about the generation loop -/

theorem fragmentPath_inj {tmp f a b : String}
    (h : fragmentPath tmp a f = fragmentPath tmp b f) : a = b := by
  have h2 := congrArg String.data h
  simp only [fragmentPath, String.data_append] at h2
  have h3 := List.append_cancel_right h2
  have h4 := List.append_cancel_right h3
  exact String.ext (List.append_cancel_left h4)

theorem generationLoop_decomp (env : GenEnv) (det : ChangelogDetails) :
    ∀ (ps : List String) (d : Delta),
    generationLoop env det ps d =
      (applyGen env.remoteFS (tmpPath env) env.fileName env.genContent d
          (writtenProjects env.genFails ps),
        genEffectsOf env.fileName det (attemptedProjects env.genFails ps),
        ps.all (fun p => ! env.genFails p)) := by
  intro ps
  induction ps with
  | nil =>
    intro d
    simp [generationLoop, writtenProjects, attemptedProjects, genEffectsOf,
      applyGen]
  | cons p rest ih =>
    intro d
    by_cases hf : env.genFails p
    · simp [generationLoop, writtenProjects, attemptedProjects, genEffectsOf,
        applyGen, hf]
    · simp [generationLoop, writtenProjects, attemptedProjects, genEffectsOf,
        applyGen, hf, ih]

theorem applyGen_lookup_notmem (base : FS) (tmp f : String)
    (gc : String → String) : ∀ (ws : List String) (d : Delta) (π : String),
    (∀ p ∈ ws, fragmentPath tmp p f ≠ π) →
    deltaLookup base (applyGen base tmp f gc d ws) π = deltaLookup base d π := by
  intro ws
  induction ws with
  | nil => intro d π _; simp [applyGen]
  | cons p rest ih =>
    intro d π h
    rw [applyGen, ih _ _ (fun q hq => h q (List.mem_cons_of_mem _ hq)),
      deltaLookup_set, if_neg (fun he => h p (List.mem_cons_self _ _) he.symm)]

theorem applyGen_lookup_mem (base : FS) (tmp f : String)
    (gc : String → String) : ∀ (ws : List String) (d : Delta) (p : String),
    p ∈ ws →
    deltaLookup base (applyGen base tmp f gc d ws) (fragmentPath tmp p f) =
      some (gc p) := by
  intro ws
  induction ws with
  | nil => intro d p h; simp at h
  | cons q rest ih =>
    intro d p h
    by_cases hp : p ∈ rest
    · rw [applyGen]; exact ih _ _ hp
    · have hpq : p = q := by
        rcases List.mem_cons.mp h with h1 | h1
        · exact h1
        · exact absurd h1 hp
      subst hpq
      have hnot : ∀ r ∈ rest, fragmentPath tmp r f ≠ fragmentPath tmp p f := by
        intro r hr he
        have : r = p := fragmentPath_inj he
        subst this
        exact hp hr
      rw [applyGen, applyGen_lookup_notmem base tmp f gc rest _ _ hnot,
        deltaLookup_set, if_pos rfl]

theorem applyGen_min (base : FS) (tmp f : String) (gc : String → String) :
    ∀ (ws : List String) (d : Delta), DeltaMin base d →
    DeltaMin base (applyGen base tmp f gc d ws) := by
  intro ws
  induction ws with
  | nil => intro d h; simpa [applyGen] using h
  | cons p rest ih =>
    intro d h
    rw [applyGen]
    exact ih _ (deltaMin_set _ _ h)

/-! ### Lemmas about the written/attempted prefixes and generation effects -/

theorem writtenProjects_all_ok (fails : String → Bool) :
    ∀ l : List String, (∀ p ∈ l, fails p = false) →
    writtenProjects fails l = l := by
  intro l
  induction l with
  | nil => intro _; rfl
  | cons p rest ih =>
    intro h
    rw [writtenProjects, if_neg (by simp [h p (List.mem_cons_self _ _)]),
      ih (fun q hq => h q (List.mem_cons_of_mem _ hq))]

theorem attemptedProjects_all_ok (fails : String → Bool) :
    ∀ l : List String, (∀ p ∈ l, fails p = false) →
    attemptedProjects fails l = l := by
  intro l
  induction l with
  | nil => intro _; rfl
  | cons p rest ih =>
    intro h
    rw [attemptedProjects, if_neg (by simp [h p (List.mem_cons_self _ _)]),
      ih (fun q hq => h q (List.mem_cons_of_mem _ hq))]

theorem writtenProjects_split (fails : String → Bool) :
    ∀ (l₁ : List String) (p : String) (l₂ : List String),
    (∀ q ∈ l₁, fails q = false) → fails p = true →
    writtenProjects fails (l₁ ++ p :: l₂) = l₁ := by
  intro l₁
  induction l₁ with
  | nil =>
    intro p l₂ _ hp
    simp [writtenProjects, hp]
  | cons q rest ih =>
    intro p l₂ h hp
    rw [List.cons_append, writtenProjects,
      if_neg (by simp [h q (List.mem_cons_self _ _)]),
      ih p l₂ (fun r hr => h r (List.mem_cons_of_mem _ hr)) hp]

theorem attemptedProjects_split (fails : String → Bool) :
    ∀ (l₁ : List String) (p : String) (l₂ : List String),
    (∀ q ∈ l₁, fails q = false) → fails p = true →
    attemptedProjects fails (l₁ ++ p :: l₂) = l₁ ++ [p] := by
  intro l₁
  induction l₁ with
  | nil =>
    intro p l₂ _ hp
    simp [attemptedProjects, hp]
  | cons q rest ih =>
    intro p l₂ h hp
    rw [List.cons_append, attemptedProjects,
      if_neg (by simp [h q (List.mem_cons_self _ _)]),
      ih p l₂ (fun r hr => h r (List.mem_cons_of_mem _ hr)) hp, List.cons_append]

theorem attemptedProjects_isPre (fails : String → Bool) :
    ∀ l : List String, ∃ t, l = attemptedProjects fails l ++ t := by
  intro l
  induction l with
  | nil => exact ⟨[], rfl⟩
  | cons p rest ih =>
    by_cases hf : fails p
    · exact ⟨rest, by simp [attemptedProjects, hf]⟩
    · rcases ih with ⟨t, ht⟩
      exact ⟨t, by rw [attemptedProjects, if_neg hf, List.cons_append, ← ht]⟩

theorem genEffectsOf_shape (f : String) (det : ChangelogDetails) :
    ∀ (l : List String), ∀ e ∈ genEffectsOf f det l,
    (∃ s, e = Effect.notice s) ∨ ∃ p c, e = Effect.generate p c := by
  intro l
  induction l with
  | nil => intro e h; simp [genEffectsOf] at h
  | cons p rest ih =>
    intro e h
    rw [genEffectsOf] at h
    rcases List.mem_cons.mp h with rfl | h
    · exact Or.inl ⟨_, rfl⟩
    · rcases List.mem_cons.mp h with rfl | h
      · exact Or.inr ⟨_, _, rfl⟩
      · exact ih e h

theorem generatedProjects_append (a b : List Effect) :
    generatedProjects (a ++ b) = generatedProjects a ++ generatedProjects b :=
  List.filterMap_append a b _

theorem generatedProjects_genEffectsOf (f : String) (det : ChangelogDetails) :
    ∀ l : List String, generatedProjects (genEffectsOf f det l) = l := by
  intro l
  induction l with
  | nil => rfl
  | cons p rest ih =>
    simp [genEffectsOf, generatedProjects] at ih ⊢
    exact ih

/-! ### Characterizations of the try phase and the run -/

theorem tryPhase_eq_noDev (env : GenEnv) (det : ChangelogDetails)
    (h : env.devRepoPath.isNone = true) (hins : env.installFails = false) :
    tryPhase env det =
      (applyGen env.remoteFS (tmpPath env) env.fileName env.genContent
          (postReconcileDelta env) (writtenProjects env.genFails env.touched),
        Effect.notice ("Installing dependencies in " ++ tmpPath env) ::
          Effect.pnpmInstall ::
          genEffectsOf env.fileName det (attemptedProjects env.genFails env.touched),
        env.touched.all (fun p => ! env.genFails p)) := by
  unfold tryPhase
  simp [h, hins, generationLoop_decomp]

theorem tryPhase_eq_noDev_installFail (env : GenEnv) (det : ChangelogDetails)
    (h : env.devRepoPath.isNone = true) (hins : env.installFails = true) :
    tryPhase env det =
      (postReconcileDelta env,
        [Effect.notice ("Installing dependencies in " ++ tmpPath env),
          Effect.pnpmInstall], false) := by
  unfold tryPhase
  simp [h, hins]

theorem tryPhase_eq_dev (env : GenEnv) (det : ChangelogDetails)
    (h : env.devRepoPath.isNone = false) :
    tryPhase env det =
      (applyGen env.remoteFS (tmpPath env) env.fileName env.genContent
          (postReconcileDelta env) (writtenProjects env.genFails env.touched),
        genEffectsOf env.fileName det (attemptedProjects env.genFails env.touched),
        env.touched.all (fun p => ! env.genFails p)) := by
  unfold tryPhase
  simp [h, generationLoop_decomp]

theorem tryPhase_delta (env : GenEnv) (det : ChangelogDetails) :
    (tryPhase env det).1 =
      applyGen env.remoteFS (tmpPath env) env.fileName env.genContent
        (postReconcileDelta env) (writtenList env) := by
  unfold writtenList
  cases hdev : env.devRepoPath.isNone with
  | true =>
    cases hins : env.installFails with
    | true =>
      rw [tryPhase_eq_noDev_installFail env det hdev hins]
      simp [hdev, hins, applyGen]
    | false =>
      rw [tryPhase_eq_noDev env det hdev hins]
      simp [hdev, hins]
  | false =>
    rw [tryPhase_eq_dev env det hdev]
    simp [hdev]

theorem commitPhase_trace (env : GenEnv) (det : ChangelogDetails)
    (t2 : List Effect) :
    (commitPhase env det t2).trace =
      t2 ++ (tryPhase env det).2.1 ++
      (if (tryPhase env det).2.2 then [] else [Effect.logError]) ++
      [Effect.notice ("Changelogs created for " ++
        String.intercalate ", " env.touched)] ++
      (if env.isGithubCI then
        [Effect.gitConfigGlobal "user.email" "github-actions@github.com",
          Effect.gitConfigGlobal "user.name" "github-actions"]
      else []) ++ [Effect.gitStatusShort] ++
      (if (tryPhase env det).1 = [] then
        [Effect.notice "No changes in changelog files. Skipping commit and push."]
      else [Effect.gitAdd, Effect.gitCommit "Adding changelog from automation.",
        Effect.gitPush env.branch,
        Effect.notice ("Pushed changes to " ++ env.branch)]) := by
  unfold commitPhase
  by_cases h : (tryPhase env det).1 = [] <;> simp [h]

theorem commitPhase_exit (env : GenEnv) (det : ChangelogDetails)
    (t2 : List Effect) : (commitPhase env det t2).exitCode = 0 := by
  unfold commitPhase
  by_cases h : (tryPhase env det).1 = [] <;> simp [h]

theorem commitPhase_finalFS (env : GenEnv) (det : ChangelogDetails)
    (t2 : List Effect) :
    (commitPhase env det t2).finalFS =
      deltaLookup env.remoteFS (tryPhase env det).1 := by
  unfold commitPhase
  by_cases h : (tryPhase env det).1 = [] <;> simp [h]

theorem commitPhase_remoteAfter (env : GenEnv) (det : ChangelogDetails)
    (t2 : List Effect) :
    (commitPhase env det t2).remoteAfter =
      if (tryPhase env det).1 = [] then env.remoteFS
      else deltaLookup env.remoteFS (tryPhase env det).1 := by
  unfold commitPhase
  by_cases h : (tryPhase env det).1 = [] <;> simp [h]

theorem commitPhase_committed (env : GenEnv) (det : ChangelogDetails)
    (t2 : List Effect) :
    (commitPhase env det t2).committed =
      if (tryPhase env det).1 = [] then false else true := by
  unfold commitPhase
  by_cases h : (tryPhase env det).1 = [] <;> simp [h]

theorem run_eq_runGen (env : GenEnv) (det : ChangelogDetails)
    (hsa : shouldAutomateChangelog env.prBody = true)
    (hd : getChangelogDetails env.prBody = Except.ok det) :
    run env = runGen env det := by
  unfold run
  rw [hd]
  simp [hsa]

theorem runGen_eq_commit (env : GenEnv) (det : ChangelogDetails)
    (ht : ¬ env.touched.length = 0) :
    runGen env det = commitPhase env det (headerTrace env ++
      (reconcileAll env.remoteFS (tmpPath env) env.fileName env.allProjects).2) := by
  unfold runGen
  simp [ht]

theorem runGen_eq_empty (env : GenEnv) (det : ChangelogDetails)
    (ht : env.touched.length = 0) :
    runGen env det =
      { trace := headerTrace env ++
          (reconcileAll env.remoteFS (tmpPath env) env.fileName env.allProjects).2 ++
          [Effect.notice "No projects require a changelog"]
        exitCode := 0
        finalFS := deltaLookup env.remoteFS (postReconcileDelta env)
        remoteAfter := env.remoteFS
        committed := false } := by
  unfold runGen
  simp [ht]

theorem headerTrace_shape (env : GenEnv) : ∀ e ∈ headerTrace env,
    e = Effect.fetchPR ∨ e = Effect.clone ∨ (∃ s, e = Effect.notice s) ∨
      ∃ b, e = Effect.checkout b := by
  intro e h
  unfold headerTrace at h
  cases hdev : env.devRepoPath.isNone <;> rw [hdev] at h <;> simp at h <;>
    rcases h with rfl | rfl | rfl | rfl | rfl | rfl | rfl
  · exact Or.inl rfl
  · exact Or.inr (Or.inr (Or.inl ⟨_, rfl⟩))
  · exact Or.inr (Or.inr (Or.inl ⟨_, rfl⟩))
  · exact Or.inr (Or.inr (Or.inr ⟨_, rfl⟩))
  · exact Or.inr (Or.inr (Or.inl ⟨_, rfl⟩))
  · exact Or.inr (Or.inr (Or.inl ⟨_, rfl⟩))
  · exact Or.inl rfl
  · exact Or.inr (Or.inl rfl)
  · exact Or.inr (Or.inr (Or.inl ⟨_, rfl⟩))
  · exact Or.inr (Or.inr (Or.inl ⟨_, rfl⟩))
  · exact Or.inr (Or.inr (Or.inr ⟨_, rfl⟩))
  · exact Or.inr (Or.inr (Or.inl ⟨_, rfl⟩))
  · exact Or.inr (Or.inr (Or.inl ⟨_, rfl⟩))

theorem reconcileAll_shape (base : FS) (tmp f : String) (ps : List String) :
    ∀ e ∈ (reconcileAll base tmp f ps).2,
    (∃ s, e = Effect.notice s) ∨ ∃ π, e = Effect.removeFragment π := by
  intro e h
  rcases reconcile_foldl_trace_shape base tmp f ps [] [] e h with h0 | h1
  · simp at h0
  · exact h1

theorem mem_if_list {α : Type} {c : Prop} [Decidable c] {e : α}
    {a b : List α} (h : e ∈ if c then a else b) : e ∈ a ∨ e ∈ b := by
  by_cases hc : c
  · rw [if_pos hc] at h; exact Or.inl h
  · rw [if_neg hc] at h; exact Or.inr h

theorem tryPhase_shape (env : GenEnv) (det : ChangelogDetails) :
    ∀ e ∈ (tryPhase env det).2.1,
    (∃ s, e = Effect.notice s) ∨ e = Effect.pnpmInstall ∨
      ∃ p c, e = Effect.generate p c := by
  intro e h
  cases hdev : env.devRepoPath.isNone with
  | false =>
    rw [tryPhase_eq_dev env det hdev] at h
    rcases genEffectsOf_shape _ _ _ e h with ⟨s, rfl⟩ | ⟨p, c, rfl⟩
    · exact Or.inl ⟨_, rfl⟩
    · exact Or.inr (Or.inr ⟨_, _, rfl⟩)
  | true =>
    cases hins : env.installFails with
    | true =>
      rw [tryPhase_eq_noDev_installFail env det hdev hins] at h
      simp at h
      rcases h with rfl | rfl
      · exact Or.inl ⟨_, rfl⟩
      · exact Or.inr (Or.inl rfl)
    | false =>
      rw [tryPhase_eq_noDev env det hdev hins] at h
      rcases List.mem_cons.mp h with rfl | h
      · exact Or.inl ⟨_, rfl⟩
      · rcases List.mem_cons.mp h with rfl | h
        · exact Or.inr (Or.inl rfl)
        · rcases genEffectsOf_shape _ _ _ e h with ⟨s, rfl⟩ | ⟨p, c, rfl⟩
          · exact Or.inl ⟨_, rfl⟩
          · exact Or.inr (Or.inr ⟨_, _, rfl⟩)

theorem commitPhase_trace_split (env : GenEnv) (det : ChangelogDetails)
    (t2 : List Effect) :
    ∃ tail, (commitPhase env det t2).trace = t2 ++ tail ∧
      ∀ e ∈ tail, (∃ s, e = Effect.notice s) ∨ e = Effect.pnpmInstall ∨
        (∃ p c, e = Effect.generate p c) ∨ e = Effect.logError ∨
        (env.isGithubCI = true ∧ ∃ k v, e = Effect.gitConfigGlobal k v) ∨
        e = Effect.gitStatusShort ∨ e = Effect.gitAdd ∨
        (∃ m, e = Effect.gitCommit m) ∨ ∃ b, e = Effect.gitPush b := by
  refine ⟨(tryPhase env det).2.1 ++
    (if (tryPhase env det).2.2 then [] else [Effect.logError]) ++
    [Effect.notice ("Changelogs created for " ++
      String.intercalate ", " env.touched)] ++
    (if env.isGithubCI then
      [Effect.gitConfigGlobal "user.email" "github-actions@github.com",
        Effect.gitConfigGlobal "user.name" "github-actions"]
    else []) ++ [Effect.gitStatusShort] ++
    (if (tryPhase env det).1 = [] then
      [Effect.notice "No changes in changelog files. Skipping commit and push."]
    else [Effect.gitAdd, Effect.gitCommit "Adding changelog from automation.",
      Effect.gitPush env.branch,
      Effect.notice ("Pushed changes to " ++ env.branch)]), ?_, ?_⟩
  · rw [commitPhase_trace]
    simp [List.append_assoc]
  · intro e h
    simp only [List.mem_append] at h
    rcases h with ((((h | h) | h) | h) | h) | h
    · rcases tryPhase_shape env det e h with h1 | h1 | h1
      · exact Or.inl h1
      · exact Or.inr (Or.inl h1)
      · exact Or.inr (Or.inr (Or.inl h1))
    · rcases mem_if_list h with h1 | h1
      · simp at h1
      · simp at h1
        exact Or.inr (Or.inr (Or.inr (Or.inl h1)))
    · simp at h
      exact Or.inl ⟨_, h⟩
    · by_cases hci : env.isGithubCI = true
      · rw [if_pos hci] at h
        simp at h
        rcases h with rfl | rfl
        · exact Or.inr (Or.inr (Or.inr (Or.inr (Or.inl ⟨hci, _, _, rfl⟩))))
        · exact Or.inr (Or.inr (Or.inr (Or.inr (Or.inl ⟨hci, _, _, rfl⟩))))
      · rw [if_neg hci] at h
        simp at h
    · simp at h
      subst h
      exact Or.inr (Or.inr (Or.inr (Or.inr (Or.inr (Or.inl rfl)))))
    · rcases mem_if_list h with h1 | h1
      · simp at h1
        exact Or.inl ⟨_, h1⟩
      · simp at h1
        rcases h1 with rfl | rfl | rfl | rfl
        · exact Or.inr (Or.inr (Or.inr (Or.inr (Or.inr (Or.inr (Or.inl rfl))))))
        · exact Or.inr (Or.inr (Or.inr (Or.inr (Or.inr (Or.inr (Or.inr
            (Or.inl ⟨_, rfl⟩)))))))
        · exact Or.inr (Or.inr (Or.inr (Or.inr (Or.inr (Or.inr (Or.inr
            (Or.inr ⟨_, rfl⟩)))))))
        · exact Or.inl ⟨_, rfl⟩

theorem generatedProjects_eq_nil (t : List Effect)
    (h : ∀ e ∈ t, ∀ p c, e ≠ Effect.generate p c) :
    generatedProjects t = [] := by
  induction t with
  | nil => rfl
  | cons e t ih =>
    have he := h e (List.mem_cons_self _ _)
    have ht : ∀ e ∈ t, ∀ p c, e ≠ Effect.generate p c :=
      fun x hx => h x (List.mem_cons_of_mem _ hx)
    cases e <;> simp [generatedProjects, List.filterMap_cons] at ih ⊢ <;>
      first
      | exact ih ht
      | exact absurd rfl (he _ _)

/-! ### Claim C4: no automation requested is a clean no-op -/

/-- C4: for every PR body in which the automation checkbox marker is
absent or unchecked, the pipeline prints a notice and exits 0 having
performed no clone, no fragment removal or generation, no commit and no
push, and leaving both the working copy and the remote branch untouched. -/
theorem no_automation_clean_noop (env : GenEnv)
    (h : shouldAutomateChangelog env.prBody = false) :
    (run env).exitCode = 0 ∧
    (run env).trace =
      [Effect.fetchPR, Effect.notice (noAutomationNotice env.prNumber)] ∧
    (run env).finalFS = env.remoteFS ∧
    (run env).remoteAfter = env.remoteFS ∧
    (run env).committed = false ∧
    Effect.clone ∉ (run env).trace ∧
    (∀ p c, Effect.generate p c ∉ (run env).trace) ∧
    (∀ π, Effect.removeFragment π ∉ (run env).trace) ∧
    (∀ m, Effect.gitCommit m ∉ (run env).trace) ∧
    (∀ b, Effect.gitPush b ∉ (run env).trace) := by
  have hr : run env =
      { trace := [Effect.fetchPR, Effect.notice (noAutomationNotice env.prNumber)]
        exitCode := 0
        finalFS := env.remoteFS
        remoteAfter := env.remoteFS
        committed := false } := by
    unfold run
    simp [h]
  rw [hr]
  refine ⟨rfl, rfl, rfl, rfl, rfl, ?_, ?_, ?_, ?_, ?_⟩ <;> simp

theorem no_automation_clean_noop_witness :
    shouldAutomateChangelog envNoAuto.prBody = false ∧
      (run envNoAuto).exitCode = 0 ∧ (run envNoAuto).committed = false :=
  ⟨by decide, (no_automation_clean_noop envNoAuto (by decide)).1,
    (no_automation_clean_noop envNoAuto (by decide)).2.2.2.2.1⟩

/-! ### Claim C5: malformed directive aborts before the clone -/

/-- C5: for every PR body with the automation checkbox set but a missing
or malformed significance/type field, the directive parse error aborts
the run with a non-zero exit code before any clone, branch checkout or
fragment generation. -/
theorem malformed_directive_aborts_before_clone (env : GenEnv) (e : String)
    (hsa : shouldAutomateChangelog env.prBody = true)
    (hd : getChangelogDetails env.prBody = Except.error e) :
    (run env).exitCode ≠ 0 ∧
    (run env).trace = [Effect.fetchPR] ∧
    Effect.clone ∉ (run env).trace ∧
    (∀ b, Effect.checkout b ∉ (run env).trace) ∧
    (∀ p c, Effect.generate p c ∉ (run env).trace) ∧
    (∀ m, Effect.gitCommit m ∉ (run env).trace) := by
  have hr : run env =
      { trace := [Effect.fetchPR]
        exitCode := 1
        finalFS := env.remoteFS
        remoteAfter := env.remoteFS
        committed := false } := by
    unfold run
    rw [hd]
    simp [hsa]
  rw [hr]
  refine ⟨by simp, rfl, ?_, ?_, ?_, ?_⟩ <;> simp

theorem malformed_directive_aborts_before_clone_witness :
    shouldAutomateChangelog envBadDirective.prBody = true ∧
      getChangelogDetails envBadDirective.prBody =
        Except.error "DirectiveParseError" ∧
      (run envBadDirective).exitCode ≠ 0 :=
  ⟨by decide, by rfl,
    (malformed_directive_aborts_before_clone envBadDirective
      "DirectiveParseError" (by decide) (by rfl)).1⟩

/-! ### Claim C6: empty touched-requiring set exits cleanly -/

/-- C6: for every run in which the touched-requiring set is empty after
reconciliation, the pipeline exits 0 without any fragment generation,
dependency installation, commit or push. -/
theorem empty_touched_set_noop (env : GenEnv) (det : ChangelogDetails)
    (hsa : shouldAutomateChangelog env.prBody = true)
    (hd : getChangelogDetails env.prBody = Except.ok det)
    (ht : env.touched = []) :
    (run env).exitCode = 0 ∧
    Effect.pnpmInstall ∉ (run env).trace ∧
    (∀ p c, Effect.generate p c ∉ (run env).trace) ∧
    Effect.gitAdd ∉ (run env).trace ∧
    (∀ m, Effect.gitCommit m ∉ (run env).trace) ∧
    (∀ b, Effect.gitPush b ∉ (run env).trace) ∧
    (run env).committed = false := by
  have hr := (run_eq_runGen env det hsa hd).trans
    (runGen_eq_empty env det (by rw [ht]; rfl))
  rw [hr]
  refine ⟨rfl, ?_, ?_, ?_, ?_, ?_, rfl⟩
  · intro hmem
    simp only [List.mem_append] at hmem
    rcases hmem with (hmem | hmem) | hmem
    · rcases headerTrace_shape env _ hmem with h1 | h1 | ⟨s, h1⟩ | ⟨b, h1⟩ <;>
        simp at h1
    · rcases reconcileAll_shape _ _ _ _ _ hmem with ⟨s, h1⟩ | ⟨π, h1⟩ <;>
        simp at h1
    · simp at hmem
  · intro p c hmem
    simp only [List.mem_append] at hmem
    rcases hmem with (hmem | hmem) | hmem
    · rcases headerTrace_shape env _ hmem with h1 | h1 | ⟨s, h1⟩ | ⟨b, h1⟩ <;>
        simp at h1
    · rcases reconcileAll_shape _ _ _ _ _ hmem with ⟨s, h1⟩ | ⟨π, h1⟩ <;>
        simp at h1
    · simp at hmem
  · intro hmem
    simp only [List.mem_append] at hmem
    rcases hmem with (hmem | hmem) | hmem
    · rcases headerTrace_shape env _ hmem with h1 | h1 | ⟨s, h1⟩ | ⟨b, h1⟩ <;>
        simp at h1
    · rcases reconcileAll_shape _ _ _ _ _ hmem with ⟨s, h1⟩ | ⟨π, h1⟩ <;>
        simp at h1
    · simp at hmem
  · intro m hmem
    simp only [List.mem_append] at hmem
    rcases hmem with (hmem | hmem) | hmem
    · rcases headerTrace_shape env _ hmem with h1 | h1 | ⟨s, h1⟩ | ⟨b, h1⟩ <;>
        simp at h1
    · rcases reconcileAll_shape _ _ _ _ _ hmem with ⟨s, h1⟩ | ⟨π, h1⟩ <;>
        simp at h1
    · simp at hmem
  · intro b hmem
    simp only [List.mem_append] at hmem
    rcases hmem with (hmem | hmem) | hmem
    · rcases headerTrace_shape env _ hmem with h1 | h1 | ⟨s, h1⟩ | ⟨b2, h1⟩ <;>
        simp at h1
    · rcases reconcileAll_shape _ _ _ _ _ hmem with ⟨s, h1⟩ | ⟨π, h1⟩ <;>
        simp at h1
    · simp at hmem

theorem empty_touched_set_noop_witness :
    shouldAutomateChangelog envEmptyTouched.prBody = true ∧
      getChangelogDetails envEmptyTouched.prBody = Except.ok okDetails ∧
      envEmptyTouched.touched = [] ∧
      (run envEmptyTouched).exitCode = 0 ∧
      (run envEmptyTouched).committed = false :=
  ⟨by decide, by rfl, rfl,
    (empty_touched_set_noop envEmptyTouched okDetails (by decide) (by rfl)
      rfl).1,
    (empty_touched_set_noop envEmptyTouched okDetails (by decide) (by rfl)
      rfl).2.2.2.2.2.2⟩

/-! ### Claim C2: CI bot identity configuration -/

/-- C2 (counterexample): in a continuous-integration run the commit step
issues `git config --global` for the bot identity, mutating the user-wide
configuration outside the clone — refuting the claim that only the
repository-local configuration of the clone is touched. -/
theorem ci_global_config_counterexample :
    envCI.isGithubCI = true ∧
    Effect.gitConfigGlobal "user.email" "github-actions@github.com" ∈
      (run envCI).trace ∧
    Effect.gitConfigGlobal "user.name" "github-actions" ∈ (run envCI).trace := by
  refine ⟨rfl, ?_, ?_⟩ <;> decide

/-- C2 (amended): in a continuous-integration run the commit step
configures the fixed bot identity (user.email, user.name) through
`git config --global`, i.e. in the user-wide configuration outside the
clone; outside CI no git configuration is written at all. -/
theorem ci_config_targets_global (env : GenEnv) (det : ChangelogDetails)
    (hsa : shouldAutomateChangelog env.prBody = true)
    (hd : getChangelogDetails env.prBody = Except.ok det)
    (ht : ¬ env.touched.length = 0) :
    (env.isGithubCI = true →
      Effect.gitConfigGlobal "user.email" "github-actions@github.com" ∈
        (run env).trace ∧
      Effect.gitConfigGlobal "user.name" "github-actions" ∈ (run env).trace) ∧
    (env.isGithubCI = false →
      ∀ k v, Effect.gitConfigGlobal k v ∉ (run env).trace) := by
  have hrun : run env = commitPhase env det (headerTrace env ++
      (reconcileAll env.remoteFS (tmpPath env) env.fileName env.allProjects).2) :=
    (run_eq_runGen env det hsa hd).trans (runGen_eq_commit env det ht)
  constructor
  · intro hci
    rw [hrun, commitPhase_trace]
    constructor <;> simp [hci]
  · intro hci k v hmem
    rw [hrun] at hmem
    rcases commitPhase_trace_split env det _ with ⟨tail, htr, hshape⟩
    rw [htr] at hmem
    rcases List.mem_append.mp hmem with h | h
    · rcases List.mem_append.mp h with h | h
      · rcases headerTrace_shape env _ h with h1 | h1 | ⟨s, h1⟩ | ⟨b, h1⟩ <;>
          simp at h1
      · rcases reconcileAll_shape _ _ _ _ _ h with ⟨s, h1⟩ | ⟨π, h1⟩ <;>
          simp at h1
    · rcases hshape _ h with ⟨s, h1⟩ | h1 | ⟨p, c, h1⟩ | h1 |
        ⟨hci2, _, _, h1⟩ | h1 | h1 | ⟨m, h1⟩ | ⟨b, h1⟩
      · simp at h1
      · simp at h1
      · simp at h1
      · simp at h1
      · rw [hci] at hci2; simp at hci2
      · simp at h1
      · simp at h1
      · simp at h1
      · simp at h1

theorem ci_config_targets_global_witness :
    shouldAutomateChangelog envCI.prBody = true ∧
      getChangelogDetails envCI.prBody = Except.ok okDetails ∧
      ¬ envCI.touched.length = 0 ∧
      Effect.gitConfigGlobal "user.email" "github-actions@github.com" ∈
        (run envCI).trace :=
  ⟨by decide, by rfl, by decide,
    ((ci_config_targets_global envCI okDetails (by decide) (by rfl)
      (by decide)).1 rfl).1⟩

/-! ### Claim C3: reconciliation removes stale fragments before generation -/

/-- C3: before any fragment generation, the reconciliation step removes
the fragment file named `fileName` from the changelog directory of every
project enumerated by `getAllProjectPaths` (not only the touched ones)
whenever it exists in the working copy: the trace splits into a prefix
containing all removals and no generation, and a suffix containing no
removal. -/
theorem reconciliation_before_generation (env : GenEnv)
    (det : ChangelogDetails)
    (hsa : shouldAutomateChangelog env.prBody = true)
    (hd : getChangelogDetails env.prBody = Except.ok det) :
    ∃ pre post, (run env).trace = pre ++ post ∧
      (∀ pp ∈ env.allProjects,
        (env.remoteFS (fragmentPath (tmpPath env) pp env.fileName)).isSome →
        Effect.removeFragment (fragmentPath (tmpPath env) pp env.fileName) ∈ pre) ∧
      (∀ p c, Effect.generate p c ∉ pre) ∧
      (∀ π, Effect.removeFragment π ∉ post) := by
  have hrr := run_eq_runGen env det hsa hd
  have hrem : ∀ pp ∈ env.allProjects,
      (env.remoteFS (fragmentPath (tmpPath env) pp env.fileName)).isSome →
      Effect.removeFragment (fragmentPath (tmpPath env) pp env.fileName) ∈
        (reconcileAll env.remoteFS (tmpPath env) env.fileName env.allProjects).2 := by
    intro pp hpp hsome
    exact reconcile_foldl_remove_mem _ _ _ _ [] [] _ ⟨pp, hpp, rfl⟩ hsome
  have hnogen : ∀ p c, Effect.generate p c ∉ headerTrace env ++
      (reconcileAll env.remoteFS (tmpPath env) env.fileName env.allProjects).2 := by
    intro p c hmem
    rcases List.mem_append.mp hmem with h | h
    · rcases headerTrace_shape env _ h with h1 | h1 | ⟨s, h1⟩ | ⟨b, h1⟩ <;>
        simp at h1
    · rcases reconcileAll_shape _ _ _ _ _ h with ⟨s, h1⟩ | ⟨π, h1⟩ <;>
        simp at h1
  by_cases ht : env.touched.length = 0
  · refine ⟨headerTrace env ++
      (reconcileAll env.remoteFS (tmpPath env) env.fileName env.allProjects).2,
      [Effect.notice "No projects require a changelog"], ?_, ?_, ?_, ?_⟩
    · rw [hrr, runGen_eq_empty env det ht]
    · intro pp hpp hsome
      exact List.mem_append_right _ (hrem pp hpp hsome)
    · exact hnogen
    · intro π hmem
      simp at hmem
  · rcases commitPhase_trace_split env det (headerTrace env ++
      (reconcileAll env.remoteFS (tmpPath env) env.fileName env.allProjects).2)
      with ⟨tail, htr, hshape⟩
    refine ⟨headerTrace env ++
      (reconcileAll env.remoteFS (tmpPath env) env.fileName env.allProjects).2,
      tail, ?_, ?_, ?_, ?_⟩
    · rw [hrr, runGen_eq_commit env det ht, htr]
    · intro pp hpp hsome
      exact List.mem_append_right _ (hrem pp hpp hsome)
    · exact hnogen
    · intro π hmem
      rcases hshape _ hmem with ⟨s, h1⟩ | h1 | ⟨p, c, h1⟩ | h1 |
        ⟨hci2, k, v, h1⟩ | h1 | h1 | ⟨m, h1⟩ | ⟨b, h1⟩ <;> simp at h1

theorem reconciliation_before_generation_witness :
    shouldAutomateChangelog envStale.prBody = true ∧
      (∃ pre post, (run envStale).trace = pre ++ post ∧
        (∀ pp ∈ envStale.allProjects,
          (envStale.remoteFS
            (fragmentPath (tmpPath envStale) pp envStale.fileName)).isSome →
          Effect.removeFragment
            (fragmentPath (tmpPath envStale) pp envStale.fileName) ∈ pre) ∧
        (∀ p c, Effect.generate p c ∉ pre) ∧
        (∀ π, Effect.removeFragment π ∉ post)) :=
  ⟨by decide,
    reconciliation_before_generation envStale okDetails (by decide) (by rfl)⟩

/-! ### Claim C8: dependency installation -/

theorem commitPhase_trace_tail (env : GenEnv) (det : ChangelogDetails)
    (t2 : List Effect) :
    (commitPhase env det t2).trace =
      t2 ++ (tryPhase env det).2.1 ++ postGenTail env det := by
  rw [commitPhase_trace]
  unfold postGenTail
  simp [List.append_assoc]

theorem postGenTail_shape (env : GenEnv) (det : ChangelogDetails) :
    ∀ e ∈ postGenTail env det,
    (∃ s, e = Effect.notice s) ∨ e = Effect.logError ∨
    (env.isGithubCI = true ∧ ∃ k v, e = Effect.gitConfigGlobal k v) ∨
    e = Effect.gitStatusShort ∨ e = Effect.gitAdd ∨
    (∃ m, e = Effect.gitCommit m) ∨ ∃ b, e = Effect.gitPush b := by
  intro e h
  unfold postGenTail at h
  simp only [List.mem_append] at h
  rcases h with (((h | h) | h) | h) | h
  · rcases mem_if_list h with h1 | h1
    · simp at h1
    · simp at h1
      exact Or.inr (Or.inl h1)
  · simp at h
    exact Or.inl ⟨_, h⟩
  · by_cases hci : env.isGithubCI = true
    · rw [if_pos hci] at h
      simp at h
      rcases h with rfl | rfl
      · exact Or.inr (Or.inr (Or.inl ⟨hci, _, _, rfl⟩))
      · exact Or.inr (Or.inr (Or.inl ⟨hci, _, _, rfl⟩))
    · rw [if_neg hci] at h
      simp at h
  · simp at h
    subst h
    exact Or.inr (Or.inr (Or.inr (Or.inl rfl)))
  · rcases mem_if_list h with h1 | h1
    · simp at h1
      exact Or.inl ⟨_, h1⟩
    · simp at h1
      rcases h1 with rfl | rfl | rfl | rfl
      · exact Or.inr (Or.inr (Or.inr (Or.inr (Or.inl rfl))))
      · exact Or.inr (Or.inr (Or.inr (Or.inr (Or.inr (Or.inl ⟨_, rfl⟩)))))
      · exact Or.inr (Or.inr (Or.inr (Or.inr (Or.inr (Or.inr ⟨_, rfl⟩)))))
      · exact Or.inl ⟨_, rfl⟩

/-- C8: for every run with a non-empty touched-requiring set, when no
existing local repository was supplied the clone happens and dependency
installation occurs exactly once, strictly before every generation call;
when a devRepoPath is supplied, neither a clone nor any installation is
performed. -/
theorem install_once_before_generation (env : GenEnv) (det : ChangelogDetails)
    (hsa : shouldAutomateChangelog env.prBody = true)
    (hd : getChangelogDetails env.prBody = Except.ok det)
    (ht : ¬ env.touched.length = 0) :
    (env.devRepoPath = none →
      Effect.clone ∈ (run env).trace ∧
      ∃ pre post, (run env).trace = pre ++ Effect.pnpmInstall :: post ∧
        Effect.pnpmInstall ∉ pre ∧ Effect.pnpmInstall ∉ post ∧
        ∀ p c, Effect.generate p c ∉ pre) ∧
    (∀ q, env.devRepoPath = some q →
      Effect.pnpmInstall ∉ (run env).trace ∧
      Effect.clone ∉ (run env).trace) := by
  have hrun : run env = commitPhase env det (headerTrace env ++
      (reconcileAll env.remoteFS (tmpPath env) env.fileName env.allProjects).2) :=
    (run_eq_runGen env det hsa hd).trans (runGen_eq_commit env det ht)
  constructor
  · intro hdev0
    have hdev : env.devRepoPath.isNone = true := by rw [hdev0]; rfl
    constructor
    · rw [hrun, commitPhase_trace_tail]
      simp [headerTrace, hdev]
    · have htp : (tryPhase env det).2.1 =
          Effect.notice ("Installing dependencies in " ++ tmpPath env) ::
            Effect.pnpmInstall ::
            (if env.installFails then []
             else genEffectsOf env.fileName det
               (attemptedProjects env.genFails env.touched)) := by
        cases hins : env.installFails with
        | true => rw [tryPhase_eq_noDev_installFail env det hdev hins]; simp
        | false => rw [tryPhase_eq_noDev env det hdev hins]; simp
      refine ⟨headerTrace env ++
        (reconcileAll env.remoteFS (tmpPath env) env.fileName env.allProjects).2 ++
        [Effect.notice ("Installing dependencies in " ++ tmpPath env)],
        (if env.installFails then []
         else genEffectsOf env.fileName det
           (attemptedProjects env.genFails env.touched)) ++
        postGenTail env det, ?_, ?_, ?_, ?_⟩
      · rw [hrun, commitPhase_trace_tail, htp]
        simp [List.append_assoc]
      · intro hmem
        simp only [List.mem_append] at hmem
        rcases hmem with (h | h) | h
        · rcases headerTrace_shape env _ h with h1 | h1 | ⟨s, h1⟩ | ⟨b, h1⟩ <;>
            simp at h1
        · rcases reconcileAll_shape _ _ _ _ _ h with ⟨s, h1⟩ | ⟨π, h1⟩ <;>
            simp at h1
        · simp at h
      · intro hmem
        rcases List.mem_append.mp hmem with h | h
        · rcases mem_if_list h with h1 | h1
          · simp at h1
          · rcases genEffectsOf_shape _ _ _ _ h1 with ⟨s, h2⟩ | ⟨p, c, h2⟩ <;>
              simp at h2
        · rcases postGenTail_shape env det _ h with ⟨s, h1⟩ | h1 |
            ⟨hci, k, v, h1⟩ | h1 | h1 | ⟨m, h1⟩ | ⟨b, h1⟩ <;> simp at h1
      · intro p c hmem
        simp only [List.mem_append] at hmem
        rcases hmem with (h | h) | h
        · rcases headerTrace_shape env _ h with h1 | h1 | ⟨s, h1⟩ | ⟨b, h1⟩ <;>
            simp at h1
        · rcases reconcileAll_shape _ _ _ _ _ h with ⟨s, h1⟩ | ⟨π, h1⟩ <;>
            simp at h1
        · simp at h
  · intro q hdev0
    have hdev : env.devRepoPath.isNone = false := by rw [hdev0]; rfl
    have htp := tryPhase_eq_dev env det hdev
    constructor
    · intro hmem
      rw [hrun, commitPhase_trace_tail, htp] at hmem
      simp only [List.mem_append] at hmem
      rcases hmem with ((h | h) | h) | h
      · rcases headerTrace_shape env _ h with h1 | h1 | ⟨s, h1⟩ | ⟨b, h1⟩ <;>
          simp at h1
      · rcases reconcileAll_shape _ _ _ _ _ h with ⟨s, h1⟩ | ⟨π, h1⟩ <;>
          simp at h1
      · rcases genEffectsOf_shape _ _ _ _ h with ⟨s, h1⟩ | ⟨p, c, h1⟩ <;>
          simp at h1
      · rcases postGenTail_shape env det _ h with ⟨s, h1⟩ | h1 |
          ⟨hci, k, v, h1⟩ | h1 | h1 | ⟨m, h1⟩ | ⟨b, h1⟩ <;> simp at h1
    · intro hmem
      rw [hrun, commitPhase_trace_tail, htp] at hmem
      simp only [List.mem_append] at hmem
      rcases hmem with ((h | h) | h) | h
      · unfold headerTrace at h
        rw [hdev] at h
        simp at h
      · rcases reconcileAll_shape _ _ _ _ _ h with ⟨s, h1⟩ | ⟨π, h1⟩ <;>
          simp at h1
      · rcases genEffectsOf_shape _ _ _ _ h with ⟨s, h1⟩ | ⟨p, c, h1⟩ <;>
          simp at h1
      · rcases postGenTail_shape env det _ h with ⟨s, h1⟩ | h1 |
          ⟨hci, k, v, h1⟩ | h1 | h1 | ⟨m, h1⟩ | ⟨b, h1⟩ <;> simp at h1

theorem install_once_before_generation_witness :
    envCI.devRepoPath = none ∧
      Effect.clone ∈ (run envCI).trace ∧
      (∃ pre post, (run envCI).trace = pre ++ Effect.pnpmInstall :: post ∧
        Effect.pnpmInstall ∉ pre ∧ Effect.pnpmInstall ∉ post ∧
        ∀ p c, Effect.generate p c ∉ pre) :=
  ⟨rfl,
    ((install_once_before_generation envCI okDetails (by decide) (by rfl)
      (by decide)).1 rfl).1,
    ((install_once_before_generation envCI okDetails (by decide) (by rfl)
      (by decide)).1 rfl).2⟩

/-! ### Claim C9: the final notice and the generation order -/

theorem generatedProjects_t2_nil (env : GenEnv) :
    generatedProjects (headerTrace env ++
      (reconcileAll env.remoteFS (tmpPath env) env.fileName env.allProjects).2)
      = [] := by
  apply generatedProjects_eq_nil
  intro e he p c hgen
  subst hgen
  rcases List.mem_append.mp he with h | h
  · rcases headerTrace_shape env _ h with h1 | h1 | ⟨s, h1⟩ | ⟨b, h1⟩ <;>
      simp at h1
  · rcases reconcileAll_shape _ _ _ _ _ h with ⟨s, h1⟩ | ⟨π, h1⟩ <;>
      simp at h1

theorem generatedProjects_postGenTail_nil (env : GenEnv)
    (det : ChangelogDetails) : generatedProjects (postGenTail env det) = [] := by
  apply generatedProjects_eq_nil
  intro e he p c hgen
  subst hgen
  rcases postGenTail_shape env det _ he with ⟨s, h1⟩ | h1 |
    ⟨hci, k, v, h1⟩ | h1 | h1 | ⟨m, h1⟩ | ⟨b, h1⟩ <;> simp at h1

theorem generatedProjects_tryPhase (env : GenEnv) (det : ChangelogDetails)
    (hins : env.devRepoPath.isNone = true → env.installFails = false) :
    generatedProjects (tryPhase env det).2.1 =
      attemptedProjects env.genFails env.touched := by
  cases hdev : env.devRepoPath.isNone with
  | false =>
    rw [tryPhase_eq_dev env det hdev]
    exact generatedProjects_genEffectsOf _ _ _
  | true =>
    rw [tryPhase_eq_noDev env det hdev (hins hdev)]
    simp only [generatedProjects, List.filterMap_cons]
    exact generatedProjects_genEffectsOf _ _ _

/-- C9: for every run that reaches the generation phase, the final
notice lists exactly the touched-requiring projects in their enumeration
order — unconditionally, regardless of per-project generation failures —
and the generation loop processed exactly a prefix of that same
enumeration (everything up to and including the first failing project). -/
theorem final_notice_lists_touched (env : GenEnv) (det : ChangelogDetails)
    (hsa : shouldAutomateChangelog env.prBody = true)
    (hd : getChangelogDetails env.prBody = Except.ok det)
    (ht : ¬ env.touched.length = 0)
    (hins : env.devRepoPath.isNone = true → env.installFails = false) :
    Effect.notice ("Changelogs created for " ++
      String.intercalate ", " env.touched) ∈ (run env).trace ∧
    generatedProjects (run env).trace =
      attemptedProjects env.genFails env.touched ∧
    ∃ t, env.touched = attemptedProjects env.genFails env.touched ++ t := by
  have hrun : run env = commitPhase env det (headerTrace env ++
      (reconcileAll env.remoteFS (tmpPath env) env.fileName env.allProjects).2) :=
    (run_eq_runGen env det hsa hd).trans (runGen_eq_commit env det ht)
  refine ⟨?_, ?_, attemptedProjects_isPre env.genFails env.touched⟩
  · rw [hrun, commitPhase_trace]
    simp
  · rw [hrun, commitPhase_trace_tail, generatedProjects_append,
      generatedProjects_append, generatedProjects_t2_nil,
      generatedProjects_postGenTail_nil,
      generatedProjects_tryPhase env det hins]
    simp

theorem final_notice_lists_touched_witness :
    shouldAutomateChangelog envCI.prBody = true ∧
      ¬ envCI.touched.length = 0 ∧
      Effect.notice ("Changelogs created for " ++
        String.intercalate ", " envCI.touched) ∈ (run envCI).trace ∧
      generatedProjects (run envCI).trace =
        attemptedProjects envCI.genFails envCI.touched :=
  ⟨by decide, by decide,
    (final_notice_lists_touched envCI okDetails (by decide) (by rfl)
      (by decide) (fun _ => rfl)).1,
    (final_notice_lists_touched envCI okDetails (by decide) (by rfl)
      (by decide) (fun _ => rfl)).2.1⟩

/-! ### Claim C1: a generation failure is caught at the phase level -/

/-- C1 (counterexample): with touched-requiring set `[projA, projB]` and
generation failing for `projA`, the run attempts no generation at all for
`projB` — the `try`/`catch` wraps the whole loop, so the failure is not
isolated per project — refuting the claim that generation is still
performed for each remaining project. -/
theorem generation_not_isolated_counterexample :
    envFail.touched = ["projA", "projB"] ∧
    envFail.genFails "projA" = true ∧
    generatedProjects (run envFail).trace = ["projA"] ∧
    (run envFail).exitCode = 0 := by
  refine ⟨rfl, rfl, ?_, ?_⟩ <;> decide

/-- C1 (amended): when generation fails for one project, generation for
the projects after it in the enumeration is skipped (the exception
escapes the `forEach`), but the failure is caught and logged at the
phase level, the run proceeds to the status check, exits 0, and the
fragments of the projects generated before the failure are in the final
working copy. -/
theorem generation_failure_caught_at_phase_level (env : GenEnv)
    (det : ChangelogDetails) (l₁ : List String) (p : String)
    (l₂ : List String)
    (hsa : shouldAutomateChangelog env.prBody = true)
    (hd : getChangelogDetails env.prBody = Except.ok det)
    (htl : env.touched = l₁ ++ p :: l₂)
    (h1 : ∀ q ∈ l₁, env.genFails q = false)
    (hp : env.genFails p = true)
    (hins : env.devRepoPath.isNone = true → env.installFails = false) :
    generatedProjects (run env).trace = l₁ ++ [p] ∧
    Effect.logError ∈ (run env).trace ∧
    (run env).exitCode = 0 ∧
    Effect.gitStatusShort ∈ (run env).trace ∧
    ∀ q ∈ l₁,
      (run env).finalFS (fragmentPath (tmpPath env) q env.fileName) =
        some (env.genContent q) := by
  have ht : ¬ env.touched.length = 0 := by rw [htl]; simp
  have hrun : run env = commitPhase env det (headerTrace env ++
      (reconcileAll env.remoteFS (tmpPath env) env.fileName env.allProjects).2) :=
    (run_eq_runGen env det hsa hd).trans (runGen_eq_commit env det ht)
  have hatt : attemptedProjects env.genFails env.touched = l₁ ++ [p] := by
    rw [htl]
    exact attemptedProjects_split env.genFails l₁ p l₂ h1 hp
  have hwrit : writtenList env = l₁ := by
    unfold writtenList
    rw [if_neg, htl, writtenProjects_split env.genFails l₁ p l₂ h1 hp]
    intro hdi
    rcases hdi with ⟨hdev, hfail⟩
    rw [hins hdev] at hfail
    simp at hfail
  have hok : (tryPhase env det).2.2 = false := by
    have hall : env.touched.all (fun q => ! env.genFails q) = false := by
      rw [htl]
      simp [hp]
    cases hdev : env.devRepoPath.isNone with
    | false => rw [tryPhase_eq_dev env det hdev]; exact hall
    | true => rw [tryPhase_eq_noDev env det hdev (hins hdev)]; exact hall
  refine ⟨?_, ?_, ?_, ?_, ?_⟩
  · rw [hrun, commitPhase_trace_tail, generatedProjects_append,
      generatedProjects_append, generatedProjects_t2_nil,
      generatedProjects_postGenTail_nil,
      generatedProjects_tryPhase env det hins, hatt]
    simp
  · rw [hrun, commitPhase_trace_tail]
    have : Effect.logError ∈ postGenTail env det := by
      unfold postGenTail
      rw [hok]
      simp
    simp [this]
  · rw [hrun]
    exact commitPhase_exit env det _
  · rw [hrun, commitPhase_trace_tail]
    have : Effect.gitStatusShort ∈ postGenTail env det := by
      unfold postGenTail
      simp
    simp [this]
  · intro q hq
    rw [hrun, commitPhase_finalFS, tryPhase_delta, hwrit]
    exact applyGen_lookup_mem _ _ _ _ l₁ _ q hq

theorem generation_failure_caught_at_phase_level_witness :
    envFail.touched = [] ++ "projA" :: ["projB"] ∧
      envFail.genFails "projA" = true ∧
      Effect.logError ∈ (run envFail).trace ∧
      (run envFail).exitCode = 0 :=
  ⟨rfl, rfl,
    (generation_failure_caught_at_phase_level envFail okDetails []
      "projA" ["projB"] (by decide) (by rfl) rfl (by simp) rfl
      (fun _ => rfl)).2.1,
    (generation_failure_caught_at_phase_level envFail okDetails []
      "projA" ["projB"] (by decide) (by rfl) rfl (by simp) rfl
      (fun _ => rfl)).2.2.1⟩

/-! ### Claim C7: status short-circuit and idempotence -/

theorem tryPhase_min (env : GenEnv) (det : ChangelogDetails) :
    DeltaMin env.remoteFS (tryPhase env det).1 := by
  rw [tryPhase_delta]
  apply applyGen_min
  unfold postReconcileDelta reconcileAll
  apply reconcile_foldl_min
  intro e he
  simp at he

theorem final_lookup_written (env : GenEnv) (det : ChangelogDetails)
    {q : String} (hq : q ∈ writtenList env) :
    deltaLookup env.remoteFS (tryPhase env det).1
      (fragmentPath (tmpPath env) q env.fileName) = some (env.genContent q) := by
  rw [tryPhase_delta]
  exact applyGen_lookup_mem _ _ _ _ _ _ q hq

theorem final_lookup_reconciled (env : GenEnv) (det : ChangelogDetails)
    {π : String}
    (hw : ∀ q ∈ writtenList env, fragmentPath (tmpPath env) q env.fileName ≠ π)
    (ha : ∃ pp ∈ env.allProjects,
      fragmentPath (tmpPath env) pp env.fileName = π) :
    deltaLookup env.remoteFS (tryPhase env det).1 π = none := by
  rw [tryPhase_delta, applyGen_lookup_notmem _ _ _ _ _ _ _ hw]
  unfold postReconcileDelta reconcileAll
  exact reconcile_foldl_lookup_mem _ _ _ _ [] [] π ha

theorem final_lookup_other (env : GenEnv) (det : ChangelogDetails)
    {π : String}
    (hw : ∀ q ∈ writtenList env, fragmentPath (tmpPath env) q env.fileName ≠ π)
    (ha : ∀ pp ∈ env.allProjects,
      fragmentPath (tmpPath env) pp env.fileName ≠ π) :
    deltaLookup env.remoteFS (tryPhase env det).1 π = env.remoteFS π := by
  rw [tryPhase_delta, applyGen_lookup_notmem _ _ _ _ _ _ _ hw]
  unfold postReconcileDelta reconcileAll
  rw [reconcile_foldl_lookup_other _ _ _ _ [] [] π ha]
  rfl

theorem postGenTail_no_commit (env : GenEnv) (det : ChangelogDetails)
    (h : (tryPhase env det).1 = []) :
    Effect.gitAdd ∉ postGenTail env det ∧
    (∀ m, Effect.gitCommit m ∉ postGenTail env det) ∧
    (∀ b, Effect.gitPush b ∉ postGenTail env det) := by
  have hdisp : ∀ e ∈ postGenTail env det,
      e ≠ Effect.gitAdd ∧ (∀ m, e ≠ Effect.gitCommit m) ∧
      ∀ b, e ≠ Effect.gitPush b := by
    intro e he
    unfold postGenTail at he
    rw [if_pos h] at he
    simp only [List.mem_append] at he
    rcases he with (((he | he) | he) | he) | he
    · rcases mem_if_list he with h1 | h1
      · simp at h1
      · simp at h1
        subst h1
        exact ⟨by simp, by simp, by simp⟩
    · simp at he
      subst he
      exact ⟨by simp, by simp, by simp⟩
    · rcases mem_if_list he with h1 | h1
      · simp at h1
        rcases h1 with rfl | rfl
        · exact ⟨by simp, by simp, by simp⟩
        · exact ⟨by simp, by simp, by simp⟩
      · simp at h1
    · simp at he
      subst he
      exact ⟨by simp, by simp, by simp⟩
    · simp at he
      subst he
      exact ⟨by simp, by simp, by simp⟩
  refine ⟨fun hmem => (hdisp _ hmem).1 rfl,
    fun m hmem => ((hdisp _ hmem).2.1 m) rfl,
    fun b hmem => ((hdisp _ hmem).2.2 b) rfl⟩

/-- C7: if the short-status of the working copy before staging is empty
(an empty minimal delta), the run exits 0 with no staging, commit or
push; and re-running the whole pipeline against the remote state left by
a first run (with the deterministic generation of the same inputs)
produces no second commit. -/
theorem empty_status_and_idempotence (env : GenEnv) (det : ChangelogDetails)
    (hsa : shouldAutomateChangelog env.prBody = true)
    (hd : getChangelogDetails env.prBody = Except.ok det)
    (ht : ¬ env.touched.length = 0) :
    ((tryPhase env det).1 = [] →
      (run env).exitCode = 0 ∧ (run env).committed = false ∧
      Effect.gitAdd ∉ (run env).trace ∧
      (∀ m, Effect.gitCommit m ∉ (run env).trace) ∧
      (∀ b, Effect.gitPush b ∉ (run env).trace)) ∧
    (run { env with remoteFS := (run env).remoteAfter }).committed = false := by
  have hrun : run env = commitPhase env det (headerTrace env ++
      (reconcileAll env.remoteFS (tmpPath env) env.fileName env.allProjects).2) :=
    (run_eq_runGen env det hsa hd).trans (runGen_eq_commit env det ht)
  constructor
  · intro hnil
    have hnc := postGenTail_no_commit env det hnil
    refine ⟨by rw [hrun]; exact commitPhase_exit env det _, ?_, ?_, ?_, ?_⟩
    · rw [hrun, commitPhase_committed, if_pos hnil]
    · intro hmem
      rw [hrun, commitPhase_trace_tail] at hmem
      simp only [List.mem_append] at hmem
      rcases hmem with ((h | h) | h) | h
      · rcases headerTrace_shape env _ h with h1 | h1 | ⟨s, h1⟩ | ⟨b, h1⟩ <;>
          simp at h1
      · rcases reconcileAll_shape _ _ _ _ _ h with ⟨s, h1⟩ | ⟨π, h1⟩ <;>
          simp at h1
      · rcases tryPhase_shape env det _ h with ⟨s, h1⟩ | h1 | ⟨p, c, h1⟩ <;>
          simp at h1
      · exact hnc.1 h
    · intro m hmem
      rw [hrun, commitPhase_trace_tail] at hmem
      simp only [List.mem_append] at hmem
      rcases hmem with ((h | h) | h) | h
      · rcases headerTrace_shape env _ h with h1 | h1 | ⟨s, h1⟩ | ⟨b, h1⟩ <;>
          simp at h1
      · rcases reconcileAll_shape _ _ _ _ _ h with ⟨s, h1⟩ | ⟨π, h1⟩ <;>
          simp at h1
      · rcases tryPhase_shape env det _ h with ⟨s, h1⟩ | h1 | ⟨p, c, h1⟩ <;>
          simp at h1
      · exact hnc.2.1 m h
    · intro b hmem
      rw [hrun, commitPhase_trace_tail] at hmem
      simp only [List.mem_append] at hmem
      rcases hmem with ((h | h) | h) | h
      · rcases headerTrace_shape env _ h with h1 | h1 | ⟨s, h1⟩ | ⟨b2, h1⟩ <;>
          simp at h1
      · rcases reconcileAll_shape _ _ _ _ _ h with ⟨s, h1⟩ | ⟨π, h1⟩ <;>
          simp at h1
      · rcases tryPhase_shape env det _ h with ⟨s, h1⟩ | h1 | ⟨p, c, h1⟩ <;>
          simp at h1
      · exact hnc.2.2 b h
  · by_cases hnil : (tryPhase env det).1 = []
    · have hre : (run env).remoteAfter = env.remoteFS := by
        rw [hrun, commitPhase_remoteAfter, if_pos hnil]
      rw [hre]
      have heta : ({ env with remoteFS := env.remoteFS } : GenEnv) = env := rfl
      rw [heta, hrun, commitPhase_committed, if_pos hnil]
    · have hre : (run env).remoteAfter =
          deltaLookup env.remoteFS (tryPhase env det).1 := by
        rw [hrun, commitPhase_remoteAfter, if_neg hnil]
      set env2 : GenEnv := { env with remoteFS := (run env).remoteAfter }
        with henv2
      have hrun2 : run env2 = commitPhase env2 det (headerTrace env2 ++
          (reconcileAll env2.remoteFS (tmpPath env2) env2.fileName
            env2.allProjects).2) :=
        (run_eq_runGen env2 det hsa hd).trans (runGen_eq_commit env2 det ht)
      have hnil2 : (tryPhase env2 det).1 = [] := by
        apply deltaMin_eq_nil (tryPhase_min env2 det)
        intro π
        have hwl : writtenList env2 = writtenList env := rfl
        by_cases hw : ∃ q ∈ writtenList env,
            fragmentPath (tmpPath env) q env.fileName = π
        · rcases hw with ⟨q, hq, hπ⟩
          have lhs : deltaLookup env2.remoteFS (tryPhase env2 det).1 π =
              some (env.genContent q) := by
            rw [← hπ]
            exact final_lookup_written env2 det (hwl ▸ hq)
          have rhs : env2.remoteFS π = some (env.genContent q) := by
            show (run env).remoteAfter π = _
            rw [hre, ← hπ]
            exact final_lookup_written env det hq
          rw [lhs, rhs]
        · have hw' : ∀ q ∈ writtenList env,
              fragmentPath (tmpPath env) q env.fileName ≠ π := by
            intro q hq he
            exact hw ⟨q, hq, he⟩
          by_cases ha : ∃ pp ∈ env.allProjects,
              fragmentPath (tmpPath env) pp env.fileName = π
          · have lhs : deltaLookup env2.remoteFS (tryPhase env2 det).1 π =
                none :=
              final_lookup_reconciled env2 det (hwl ▸ hw') ha
            have rhs : env2.remoteFS π = none := by
              show (run env).remoteAfter π = _
              rw [hre]
              exact final_lookup_reconciled env det hw' ha
            rw [lhs, rhs]
          · have ha' : ∀ pp ∈ env.allProjects,
                fragmentPath (tmpPath env) pp env.fileName ≠ π := by
              intro pp hpp he
              exact ha ⟨pp, hpp, he⟩
            exact final_lookup_other env2 det (hwl ▸ hw') ha'
      rw [hrun2, commitPhase_committed, if_pos hnil2]

theorem empty_status_and_idempotence_witness :
    shouldAutomateChangelog envIdem.prBody = true ∧
      ¬ envIdem.touched.length = 0 ∧
      (tryPhase envIdem okDetails).1 = [] ∧
      (run envIdem).committed = false ∧
      (run { envIdem with
        remoteFS := (run envIdem).remoteAfter }).committed = false :=
  ⟨by decide, by decide, by decide,
    ((empty_status_and_idempotence envIdem okDetails (by decide) (by rfl)
      (by decide)).1 (by decide)).2.1,
    (empty_status_and_idempotence envIdem okDetails (by decide) (by rfl)
      (by decide)).2⟩

/-! ### Claim C10: unsanitized interpolation into the shell command -/

theorem shellSplitAux_no_quote :
    ∀ (cs : List Char) (inQ : Bool) (w : List Char)
      (toks res : List (List Char)),
    (∀ c ∈ cs, c ≠ '\\') → (∀ c ∈ w, c ≠ '"') →
    (∀ t ∈ toks, ∀ c ∈ t, c ≠ '"') →
    shellSplitAux cs inQ w toks = some res →
    ∀ t ∈ res, ∀ c ∈ t, c ≠ '"' := by
  intro cs
  induction cs with
  | nil =>
    intro inQ w toks res hb hw htoks heq
    cases inQ with
    | true => simp [shellSplitAux] at heq
    | false =>
      simp only [shellSplitAux, Bool.false_eq_true, if_false] at heq
      by_cases hwe : w.isEmpty = true
      · rw [if_pos hwe] at heq
        rcases Option.some.inj heq with rfl
        intro t htm
        exact htoks t (List.mem_reverse.mp htm)
      · rw [if_neg hwe] at heq
        rcases Option.some.inj heq with rfl
        intro t htm
        rcases List.mem_cons.mp (List.mem_reverse.mp htm) with rfl | htm2
        · intro c hc
          exact hw c (List.mem_reverse.mp hc)
        · exact htoks t htm2
  | cons c cs ih =>
    intro inQ w toks res hb hw htoks heq
    have hbc : c ≠ '\\' := hb c (List.mem_cons_self _ _)
    have hbs : ∀ x ∈ cs, x ≠ '\\' := fun x hx => hb x (List.mem_cons_of_mem _ hx)
    cases inQ with
    | true =>
      rw [shellSplitAux.eq_def] at heq
      simp only [] at heq
      by_cases hcq : c = '"'
      · rw [if_pos hcq] at heq
        exact ih false w toks res hbs hw htoks heq
      · rw [if_neg hcq, if_neg hbc] at heq
        have hw' : ∀ x ∈ c :: w, x ≠ '"' := by
          intro x hx
          rcases List.mem_cons.mp hx with rfl | hx
          · exact hcq
          · exact hw x hx
        exact ih true (c :: w) toks res hbs hw' htoks heq
    | false =>
      rw [shellSplitAux.eq_def] at heq
      simp only [] at heq
      rw [if_neg Bool.false_ne_true] at heq
      by_cases hcs : c = ' '
      · rw [if_pos hcs] at heq
        by_cases hwe : w.isEmpty = true
        · rw [if_pos hwe] at heq
          exact ih false [] toks res hbs (by simp) htoks heq
        · rw [if_neg hwe] at heq
          have htoks' : ∀ t ∈ w.reverse :: toks, ∀ x ∈ t, x ≠ '"' := by
            intro t ht
            rcases List.mem_cons.mp ht with rfl | ht
            · intro x hx
              exact hw x (List.mem_reverse.mp hx)
            · exact htoks t ht
          exact ih false [] (w.reverse :: toks) res hbs (by simp) htoks' heq
      · rw [if_neg hcs] at heq
        by_cases hcq : c = '"'
        · rw [if_pos hcq] at heq
          exact ih true w toks res hbs hw htoks heq
        · rw [if_neg hcq, if_neg hbc] at heq
          have hw' : ∀ x ∈ c :: w, x ≠ '"' := by
            intro x hx
            rcases List.mem_cons.mp hx with rfl | hx
            · exact hcq
            · exact hw x hx
          exact ih false (c :: w) toks res hbs hw' htoks heq

theorem shellSplit_no_quote_token (s : String)
    (hnb : ∀ c ∈ s.data, c ≠ '\\') :
    ∀ toks, shellSplit s = some toks → ∀ t ∈ toks, ∀ c ∈ t.data, c ≠ '"' := by
  intro toks heq t htm c hcm
  unfold shellSplit at heq
  cases hx : shellSplitAux s.data false [] [] with
  | none => rw [hx] at heq; simp at heq
  | some ls =>
    rw [hx] at heq
    simp only [Option.map_some', Option.some.injEq] at heq
    subst heq
    rcases List.mem_map.mp htm with ⟨l, hl, rfl⟩
    exact shellSplitAux_no_quote s.data false [] [] ls hnb (by simp) (by simp)
      hx l hl c hcm

/-- C10: the per-project generation command interpolates the PR-supplied
message and comment verbatim inside double quotes, with no escaping or
sanitization; consequently, for every message containing a double-quote
character (in a command otherwise free of backslashes), no successful
shell parse of the command yields the message as a single argument — the
untrusted text is not confined to one argument of the subprocess. -/
theorem command_injection_unconfined (project f : String)
    (det : ChangelogDetails)
    (hm : det.message ≠ "")
    (hc : det.comment ≠ "")
    (hq : '"' ∈ det.message.data)
    (hnb : ∀ c ∈ (changelogCmd project f det).data, c ≠ '\\') :
    changelogCmd project f det =
      "pnpm --filter=" ++ project ++ " run changelog add -f " ++ f ++
        " -s " ++ det.significance ++ " -t " ++ det.type ++ " " ++
        ("-e \"" ++ det.message ++ "\"") ++ " " ++
        ("-c \"" ++ det.comment ++ "\"") ++ " -n" ∧
    ∀ toks, shellSplit (changelogCmd project f det) = some toks →
      det.message ∉ toks := by
  constructor
  · unfold changelogCmd
    rw [if_pos hm, if_pos hc]
  · intro toks heq hmem
    exact shellSplit_no_quote_token _ hnb toks heq det.message hmem '"' hq rfl

theorem command_injection_unconfined_witness :
    injDetails.message ≠ "" ∧
      '"' ∈ injDetails.message.data ∧
      (∀ c ∈ (changelogCmd "woocommerce" "53922" injDetails).data,
        c ≠ '\\') ∧
      ∀ toks, shellSplit (changelogCmd "woocommerce" "53922" injDetails) =
          some toks → injDetails.message ∉ toks :=
  ⟨by decide, by decide, by decide,
    (command_injection_unconfined "woocommerce" "53922" injDetails
      (by decide) (by decide) (by decide) (by decide)).2⟩

end Changefile
